import Mathlib

/-!
Verification of a symbolic engine for the untyped lambda calculus
(`lambda_calculus.py`): terms as trees, capture-avoiding substitution with
deterministic numeric-suffix fresh names, alpha/beta/eta conversion,
bounded normalization, reduction traces, and Church encodings.

The Python recursion in `Abs.substitute` is not structurally recursive (the
capture branch substitutes into an already-substituted body), so substitution
is embedded with an explicit fuel parameter equal to the term size; fuel
irrelevance and size preservation are proved below so the wrapper
`substitute` satisfies the source's three defining equations.
-/

namespace LambdaCalc

/-- The term datatype: `Var` (variable), `Abs` (λ-abstraction `λvar.body`),
`App` (application), mirroring classes `Var`, `Abs`, `App`. -/
inductive Term : Type where
  | Var : String → Term
  | Abs : String → Term → Term
  | App : Term → Term → Term
deriving DecidableEq, Repr

open Term

/-- `free_vars`: `Var` → `{name}`; `Abs` → `free_vars(body) - {var}`;
`App` → `free_vars(func) ∪ free_vars(arg)`. -/
def free_vars : Term → Finset String
  | .Var n => {n}
  | .Abs v b => free_vars b \ {v}
  | .App f a => free_vars f ∪ free_vars a

/-- `term_size`: number of nodes (1 for a variable, 1 + size of body for an
abstraction, 1 + sizes of both children for an application). -/
def term_size : Term → Nat
  | .Var _ => 1
  | .Abs _ b => 1 + term_size b
  | .App f a => 1 + term_size f + term_size a

theorem term_size_pos (t : Term) : 1 ≤ term_size t := by
  cases t <;> simp only [term_size] <;> omega

/-- Decimal digit characters: `digitChar d` is the character for digit `d`. -/
def digitChar (d : Nat) : Char := Char.ofNat (48 + d)

/-- Little-endian decimal digits of `n`, with explicit fuel (fuel `≥ n`
suffices); used to embed Python's `f"{base}_{counter}"` formatting. -/
def digitsF : Nat → Nat → List Nat
  | 0, _ => []
  | fuel + 1, n => if n = 0 then [] else n % 10 :: digitsF fuel (n / 10)

/-- Decimal string of `n` (for `n ≥ 1`, the same string Python's `f"{n}"`
produces). -/
def decStr (n : Nat) : String := ⟨((digitsF n n).reverse.map digitChar)⟩

/-- The candidate name `f"{base}_{counter}"` tried by `Abs._fresh_var`. -/
def candidate (base : String) (counter : Nat) : String :=
  base ++ "_" ++ decStr counter

/-- The `while f"{base}_{counter}" in avoid: counter += 1` loop of
`Abs._fresh_var`, with explicit fuel. The loop always terminates because the
candidates are pairwise distinct and `avoid` is finite; with fuel
`avoid.card + 1` the fallback (fuel 0) branch is never reached (proved
below). -/
def freshLoop (base : String) (avoid : Finset String) : Nat → Nat → String
  | 0, counter => candidate base counter
  | fuel + 1, counter =>
    if candidate base counter ∈ avoid then freshLoop base avoid fuel (counter + 1)
    else candidate base counter

/-- `Abs._fresh_var`: smallest `counter ≥ 1` whose candidate
`f"{base}_{counter}"` is not in `avoid`. -/
def fresh_var (base : String) (avoid : Finset String) : String :=
  freshLoop base avoid (avoid.card + 1) 1

/-- `substitute` with explicit fuel (any fuel `≥ term_size t` gives the same
result, proved below). Matches the three `substitute` methods: `Var` returns
the replacement on a name hit; `App` substitutes in both children; `Abs`
returns itself when shadowed, substitutes into the body when the binder is
not free in the replacement, and otherwise renames the binder to
`fresh_var` of `free_vars(term) ∪ free_vars(body) ∪ {var}` before
substituting. -/
def substF : Nat → Term → String → Term → Term
  | 0, t, _, _ => t
  | fuel + 1, t, x, r =>
    match t with
    | .Var n => if n = x then r else .Var n
    | .App f a => .App (substF fuel f x r) (substF fuel a x r)
    | .Abs v b =>
      if v = x then .Abs v b
      else if v ∉ free_vars r then .Abs v (substF fuel b x r)
      else
        let fr := fresh_var v (free_vars r ∪ free_vars b ∪ {x})
        .Abs fr (substF fuel (substF fuel b v (.Var fr)) x r)

/-- `LambdaTerm.substitute(var, term)`: replace free occurrences of `x` in
`t` by `r`, avoiding capture. -/
def substitute (t : Term) (x : String) (r : Term) : Term :=
  substF (term_size t) t x r

/-- `beta_reduce`: one step of leftmost-outermost beta reduction, `none`
when no reduction is possible. -/
def beta_reduce : Term → Option Term
  | .Var _ => none
  | .Abs v b =>
    match beta_reduce b with
    | some b' => some (.Abs v b')
    | none => none
  | .App f a =>
    match f with
    | .Abs v b => some (substitute b v a)
    | _ =>
      match beta_reduce f with
      | some f' => some (.App f' a)
      | none =>
        match beta_reduce a with
        | some a' => some (.App f a')
        | none => none

/-- `alpha_convert(term, new_var)`: rename the bound variable of an
abstraction. The Python signature restricts the argument to `Abs`; calling
it on a `Var` or `App` raises `AttributeError` (no `.body`/`.var`
attribute), embedded here as `none`. -/
def alpha_convert : Term → String → Option Term
  | .Abs v b, y => some (.Abs y (substitute b v (.Var y)))
  | .Var _, _ => none
  | .App _ _, _ => none

/-- `eta_convert`: `λx.(M x) → M` when `x` is not free in `M`, else `none`;
outermost shape only. -/
def eta_convert : Term → Option Term
  | .Abs v (.App f (.Var n)) =>
    if n = v then
      if v ∉ free_vars f then some f else none
    else none
  | _ => none

/-- The `while steps < max_steps` loop of `normalize`. -/
def normalizeAux : Nat → Term → Term
  | 0, t => t
  | k + 1, t =>
    match beta_reduce t with
    | none => t
    | some t' => normalizeAux k t'

/-- `normalize(term, max_steps=1000)`: repeatedly beta-reduce, stopping at
normal form or after `max_steps` steps. -/
def normalize (t : Term) (max_steps : Nat := 1000) : Term :=
  normalizeAux max_steps t

/-- `is_normal_form(term)`: `beta_reduce(term) is None`. -/
def is_normal_form (t : Term) : Bool :=
  (beta_reduce t).isNone

/-- The loop of `church_numeral`: `n` applications of `Var "f"` around
`Var "x"`. -/
def churchBody : Nat → Term
  | 0 => .Var "x"
  | n + 1 => .App (.Var "f") (churchBody n)

/-- `church_numeral(n)`: `λf.λx.f(...(f x)...)` with `n` applications. -/
def church_numeral (n : Nat) : Term :=
  .Abs "f" (.Abs "x" (churchBody n))

/-- `church_succ()`: `λn.λf.λx.f(n f x)`. -/
def church_succ : Term :=
  .Abs "n" (.Abs "f" (.Abs "x"
    (.App (.Var "f") (.App (.App (.Var "n") (.Var "f")) (.Var "x")))))

/-- `church_add()`: `λm.λn.λf.λx.m f (n f x)`. -/
def church_add : Term :=
  .Abs "m" (.Abs "n" (.Abs "f" (.Abs "x"
    (.App (.App (.Var "m") (.Var "f"))
      (.App (.App (.Var "n") (.Var "f")) (.Var "x"))))))

/-- `church_mult()`: `λm.λn.λf.m(n f)`. -/
def church_mult : Term :=
  .Abs "m" (.Abs "n" (.Abs "f"
    (.App (.Var "m") (.App (.Var "n") (.Var "f")))))

/-- `count_redexes`: number of applications whose function is an
abstraction. -/
def count_redexes : Term → Nat
  | .Var _ => 0
  | .Abs _ b => count_redexes b
  | .App f a =>
    count_redexes f + count_redexes a + (match f with | .Abs _ _ => 1 | _ => 0)

/-- The `for _ in range(max_steps)` loop of `reduction_steps`: the terms
appended after the start. -/
def reductionAux : Nat → Term → List Term
  | 0, _ => []
  | k + 1, t =>
    match beta_reduce t with
    | none => []
    | some t' => t' :: reductionAux k t'

/-- `reduction_steps(term, max_steps=1000)`: the starting term followed by
each successive one-step reduction, truncated at `max_steps`. -/
def reduction_steps (t : Term) (max_steps : Nat := 1000) : List Term :=
  t :: reductionAux max_steps t

/-- The omega term `(λx.x x)(λx.x x)`. -/
def omegaTerm : Term :=
  .App (.Abs "x" (.App (.Var "x") (.Var "x")))
    (.Abs "x" (.App (.Var "x") (.Var "x")))

/-! ### Decimal rendering is injective (distinct counters give distinct candidates) -/

/-- Inverse of the digit list: recover the number from little-endian digits. -/
def fromDigits : List Nat → Nat
  | [] => 0
  | d :: l => d + 10 * fromDigits l

theorem digitChar_toNat {d : Nat} (hd : d < 10) : (digitChar d).toNat = 48 + d := by
  interval_cases d <;> decide

theorem digitChar_inj {d e : Nat} (hd : d < 10) (he : e < 10)
    (h : digitChar d = digitChar e) : d = e := by
  have := congrArg Char.toNat h
  rw [digitChar_toNat hd, digitChar_toNat he] at this
  omega

theorem digitsF_lt (fuel n : Nat) : ∀ d ∈ digitsF fuel n, d < 10 := by
  induction fuel generalizing n with
  | zero => intro d hd; simp [digitsF] at hd
  | succ fuel ih =>
    intro d hd
    simp only [digitsF] at hd
    by_cases h : n = 0
    · simp [h] at hd
    · simp [h] at hd
      rcases hd with h1 | h1
      · omega
      · exact ih _ d h1

theorem fromDigits_digitsF (fuel n : Nat) (h : n ≤ fuel) :
    fromDigits (digitsF fuel n) = n := by
  induction fuel generalizing n with
  | zero => interval_cases n; simp [digitsF, fromDigits]
  | succ fuel ih =>
    simp only [digitsF]
    by_cases h0 : n = 0
    · simp [h0, fromDigits]
    · have hlt : n / 10 < n := Nat.div_lt_self (by omega) (by omega)
      simp only [h0, if_false, fromDigits, ih (n / 10) (by omega)]
      omega

theorem map_digitChar_inj : ∀ l1 l2 : List Nat, (∀ d ∈ l1, d < 10) → (∀ d ∈ l2, d < 10) →
    l1.map digitChar = l2.map digitChar → l1 = l2 := by
  intro l1
  induction l1 with
  | nil => intro l2 _ _ h; cases l2 <;> simp_all
  | cons d l ih =>
    intro l2 h1 h2 h
    cases l2 with
    | nil => simp at h
    | cons e l' =>
      simp only [List.map_cons, List.cons.injEq] at h
      have hd : d = e := digitChar_inj (h1 d (by simp)) (h2 e (by simp)) h.1
      have hl : l = l' := ih l' (fun d hd => h1 d (by simp [hd])) (fun d hd => h2 d (by simp [hd])) h.2
      rw [hd, hl]

theorem decStr_inj {m n : Nat} (h : decStr m = decStr n) : m = n := by
  have hdata := congrArg String.data h
  simp only [decStr] at hdata
  have hrev : (digitsF m m).reverse = (digitsF n n).reverse :=
    map_digitChar_inj _ _
      (fun d hd => digitsF_lt m m d (List.mem_reverse.mp hd))
      (fun d hd => digitsF_lt n n d (List.mem_reverse.mp hd)) hdata
  have hdig : digitsF m m = digitsF n n := List.reverse_injective hrev
  have := congrArg fromDigits hdig
  rwa [fromDigits_digitsF m m le_rfl, fromDigits_digitsF n n le_rfl] at this

theorem candidate_inj {base : String} {m n : Nat} (h : candidate base m = candidate base n) :
    m = n := by
  apply decStr_inj
  have hdata := congrArg String.data h
  simp only [candidate] at hdata
  have : (base ++ "_").data ++ (decStr m).data = (base ++ "_").data ++ (decStr n).data := by
    simpa [String.append_assoc] using hdata
  exact String.ext (List.append_cancel_left this)

/-! ### The fresh-variable search returns the least unused suffix -/

theorem freshLoop_spec (base : String) (avoid : Finset String) :
    ∀ fuel counter, (∃ j, j < fuel ∧ candidate base (counter + j) ∉ avoid) →
    ∃ i, freshLoop base avoid fuel counter = candidate base (counter + i) ∧
      candidate base (counter + i) ∉ avoid ∧
      ∀ j, j < i → candidate base (counter + j) ∈ avoid := by
  intro fuel
  induction fuel with
  | zero => intro counter ⟨j, hj, _⟩; omega
  | succ fuel ih =>
    intro counter hex
    obtain ⟨j, hj, hnot⟩ := hex
    by_cases h : candidate base counter ∈ avoid
    · have hj0 : j ≠ 0 := by rintro rfl; simp at hnot; exact hnot h
      have hnot' : candidate base (counter + 1 + (j - 1)) ∉ avoid := by
        have heq : counter + 1 + (j - 1) = counter + j := by omega
        rwa [heq]
      obtain ⟨i, hi1, hi2, hi3⟩ := ih (counter + 1) ⟨j - 1, by omega, hnot'⟩
      refine ⟨i + 1, ?_, ?_, ?_⟩
      · simp only [freshLoop, h, if_true]
        have : counter + 1 + i = counter + (i + 1) := by omega
        rwa [this] at hi1
      · have : counter + 1 + i = counter + (i + 1) := by omega
        rwa [this] at hi2
      · intro j' hj'
        rcases Nat.eq_zero_or_pos j' with rfl | hpos
        · simpa using h
        · have : counter + j' = counter + 1 + (j' - 1) := by omega
          rw [this]
          exact hi3 (j' - 1) (by omega)
    · exact ⟨0, by simp [freshLoop, h], by simpa using h, by omega⟩

theorem fresh_exists (base : String) (avoid : Finset String) :
    ∃ j, j < avoid.card + 1 ∧ candidate base (1 + j) ∉ avoid := by
  by_contra hall
  push_neg at hall
  have hsub : (Finset.range (avoid.card + 1)).image (fun j => candidate base (1 + j)) ⊆ avoid := by
    intro s hs
    simp only [Finset.mem_image, Finset.mem_range] at hs
    obtain ⟨j, hj, rfl⟩ := hs
    exact hall j hj
  have hcard : ((Finset.range (avoid.card + 1)).image
      (fun j => candidate base (1 + j))).card = avoid.card + 1 := by
    rw [Finset.card_image_of_injOn, Finset.card_range]
    intro a _ b _ hab
    have := candidate_inj hab
    omega
  have := Finset.card_le_card hsub
  omega

theorem fresh_var_spec (base : String) (avoid : Finset String) :
    ∃ k, 1 ≤ k ∧ fresh_var base avoid = candidate base k ∧
      candidate base k ∉ avoid ∧ ∀ j, 1 ≤ j → j < k → candidate base j ∈ avoid := by
  obtain ⟨i, hi1, hi2, hi3⟩ := freshLoop_spec base avoid (avoid.card + 1) 1
    (fresh_exists base avoid)
  refine ⟨1 + i, by omega, hi1, hi2, ?_⟩
  intro j h1 hj
  have : j = 1 + (j - 1) := by omega
  rw [this]
  exact hi3 (j - 1) (by omega)

theorem fresh_var_not_mem (base : String) (avoid : Finset String) :
    fresh_var base avoid ∉ avoid := by
  obtain ⟨k, _, hk, hnot, _⟩ := fresh_var_spec base avoid
  rw [hk]
  exact hnot

/-! ### Fuel irrelevance: `substF` computes `substitute` at any sufficient fuel -/

theorem substF_size_var (fuel : Nat) : ∀ (t : Term) (x y : String),
    term_size t ≤ fuel → term_size (substF fuel t x (.Var y)) = term_size t := by
  induction fuel with
  | zero =>
    intro t x y h
    have := term_size_pos t
    omega
  | succ fuel ih =>
    intro t x y h
    cases t with
    | Var n =>
      simp only [substF]
      by_cases hn : n = x <;> simp [hn, term_size]
    | App f a =>
      simp only [term_size] at h
      have hf := term_size_pos f
      have ha := term_size_pos a
      simp only [substF, term_size, ih f x y (by omega), ih a x y (by omega)]
    | Abs v b =>
      simp only [term_size] at h
      simp only [substF]
      by_cases hv : v = x
      · simp [hv, term_size]
      · simp only [hv, if_false]
        by_cases hm : v ∉ free_vars (Term.Var y)
        · simp [hm, term_size, ih b x y (by omega)]
        · simp only [hm, if_false, term_size]
          have h1 : term_size (substF fuel b v
              (Term.Var (fresh_var v (free_vars (Term.Var y) ∪ free_vars b ∪ {x})))) =
              term_size b := ih b v _ (by omega)
          rw [ih _ x y (by omega), h1]

theorem substF_irrel (fuel : Nat) : ∀ (t : Term) (x : String) (r : Term) (fuel' : Nat),
    term_size t ≤ fuel → term_size t ≤ fuel' → substF fuel t x r = substF fuel' t x r := by
  induction fuel with
  | zero =>
    intro t x r fuel' h _
    have := term_size_pos t
    omega
  | succ fuel ih =>
    intro t x r fuel' h h'
    cases fuel' with
    | zero =>
      have := term_size_pos t
      omega
    | succ fuel' =>
      cases t with
      | Var n => simp only [substF]
      | App f a =>
        simp only [term_size] at h h'
        simp only [substF]
        rw [ih f x r fuel' (by omega) (by omega), ih a x r fuel' (by omega) (by omega)]
      | Abs v b =>
        simp only [term_size] at h h'
        simp only [substF]
        by_cases hv : v = x
        · simp [hv]
        · simp only [hv, if_false]
          by_cases hm : v ∉ free_vars r
          · rw [if_pos hm, if_pos hm, ih b x r fuel' (by omega) (by omega)]
          · rw [if_neg hm, if_neg hm]
            have hb : substF fuel b v
                (Term.Var (fresh_var v (free_vars r ∪ free_vars b ∪ {x}))) =
                substF fuel' b v
                (Term.Var (fresh_var v (free_vars r ∪ free_vars b ∪ {x}))) :=
              ih b v _ fuel' (by omega) (by omega)
            rw [hb, ih _ x r fuel'
              (by rw [substF_size_var fuel' b v _ (by omega)]; omega)
              (by rw [substF_size_var fuel' b v _ (by omega)]; omega)]

/-- Defining equation of `substitute` on variables (`Var.substitute`). -/
theorem substitute_Var (n x : String) (r : Term) :
    substitute (.Var n) x r = if n = x then r else .Var n := rfl

/-- Defining equation of `substitute` on applications (`App.substitute`). -/
theorem substitute_App (f a : Term) (x : String) (r : Term) :
    substitute (.App f a) x r = .App (substitute f x r) (substitute a x r) := by
  unfold substitute
  have hf := term_size_pos f
  have ha := term_size_pos a
  have h : term_size (Term.App f a) = (term_size f + term_size a) + 1 := by
    simp only [term_size]; omega
  rw [h]
  simp only [substF]
  rw [substF_irrel _ f x r (term_size f) (by omega) le_rfl,
    substF_irrel _ a x r (term_size a) (by omega) le_rfl]

/-- Defining equation of `substitute` on a shadowing abstraction
(`Abs.substitute`, first branch). -/
theorem substitute_Abs_shadow (x : String) (b : Term) (r : Term) :
    substitute (.Abs x b) x r = .Abs x b := by
  unfold substitute
  have h : term_size (Term.Abs x b) = term_size b + 1 := by
    simp only [term_size]; omega
  rw [h]
  simp [substF]

/-- Defining equation of `substitute` on a non-capturing abstraction
(`Abs.substitute`, second branch). -/
theorem substitute_Abs_safe {v x : String} (b : Term) {r : Term}
    (hv : v ≠ x) (hm : v ∉ free_vars r) :
    substitute (.Abs v b) x r = .Abs v (substitute b x r) := by
  unfold substitute
  have h : term_size (Term.Abs v b) = term_size b + 1 := by
    simp only [term_size]; omega
  rw [h]
  simp only [substF]
  rw [if_neg hv, if_pos hm]

/-- Defining equation of `substitute` on a capturing abstraction
(`Abs.substitute`, third branch): rename the binder to the fresh variable
throughout the body, then substitute in the renamed body. -/
theorem substitute_Abs_rename {v x : String} (b : Term) {r : Term}
    (hv : v ≠ x) (hm : v ∈ free_vars r) :
    substitute (.Abs v b) x r =
      .Abs (fresh_var v (free_vars r ∪ free_vars b ∪ {x}))
        (substitute
          (substitute b v (.Var (fresh_var v (free_vars r ∪ free_vars b ∪ {x})))) x r) := by
  unfold substitute
  have hsz : term_size (substF (term_size b) b v
      (.Var (fresh_var v (free_vars r ∪ free_vars b ∪ {x})))) = term_size b :=
    substF_size_var _ b v _ le_rfl
  rw [hsz]
  have h : term_size (Term.Abs v b) = term_size b + 1 := by
    simp only [term_size]; omega
  rw [h]
  simp only [substF]
  rw [if_neg hv, if_neg (not_not_intro hm)]

/-- Substituting a variable for a variable preserves the term size. -/
theorem substitute_size_var (t : Term) (x y : String) :
    term_size (substitute t x (.Var y)) = term_size t :=
  substF_size_var (term_size t) t x y le_rfl

/-! ### Free variables of a substitution -/

set_option maxHeartbeats 1600000 in
theorem mem_free_vars_substitute_aux (n : Nat) : ∀ (t : Term), term_size t ≤ n →
    ∀ (x : String) (r : Term) (s : String),
    (s ∈ free_vars (substitute t x r) ↔
      (s ∈ free_vars t ∧ s ≠ x) ∨ (x ∈ free_vars t ∧ s ∈ free_vars r)) := by
  induction n with
  | zero =>
    intro t h
    have := term_size_pos t
    omega
  | succ n ih =>
    intro t h x r s
    cases t with
    | Var m =>
      rw [substitute_Var]
      by_cases hm : m = x
      · subst hm
        simp only [if_pos rfl, free_vars, Finset.mem_singleton]
        tauto
      · simp only [if_neg hm, free_vars, Finset.mem_singleton]
        constructor
        · intro h1
          exact Or.inl ⟨h1, fun hs => hm (h1.symm.trans hs)⟩
        · rintro (⟨h1, _⟩ | ⟨h1, _⟩)
          · exact h1
          · exact absurd h1.symm hm
    | App f a =>
      simp only [term_size] at h
      rw [substitute_App]
      simp only [free_vars, Finset.mem_union]
      rw [ih f (by omega) x r s, ih a (by omega) x r s]
      tauto
    | Abs v b =>
      simp only [term_size] at h
      by_cases hv : v = x
      · subst hv
        rw [substitute_Abs_shadow]
        simp only [free_vars, Finset.mem_sdiff, Finset.mem_singleton]
        tauto
      · by_cases hm : v ∈ free_vars r
        · rw [substitute_Abs_rename b hv hm]
          have hfr := fresh_var_not_mem v (free_vars r ∪ free_vars b ∪ {x})
          generalize hg : fresh_var v (free_vars r ∪ free_vars b ∪ {x}) = fr at hfr ⊢
          simp only [Finset.mem_union, Finset.mem_singleton, not_or] at hfr
          obtain ⟨⟨frr, frb⟩, frx⟩ := hfr
          have hsz : term_size (substitute b v (.Var fr)) = term_size b :=
            substitute_size_var b v _
          have ih_outer := ih (substitute b v (.Var fr)) (by omega) x r s
          have ih_inner_s := ih b (by omega) v (.Var fr) s
          have ih_inner_x := ih b (by omega) v (.Var fr) x
          simp only [free_vars, Finset.mem_singleton] at ih_inner_s ih_inner_x
          simp only [free_vars, Finset.mem_sdiff, Finset.mem_singleton]
          rw [ih_outer, ih_inner_s, ih_inner_x]
          have haux1 : s ∈ free_vars b → ¬s = fr := fun h1 h2 => frb (h2 ▸ h1)
          have haux2 : s ∈ free_vars r → ¬s = fr := fun h1 h2 => frr (h2 ▸ h1)
          have haux3 : ¬x = fr := fun h1 => frx h1.symm
          constructor
          · rintro ⟨⟨⟨hs, hsv⟩ | ⟨hv2, hsfr2⟩, hsx⟩ | ⟨⟨hx, hxv⟩ | ⟨hv2, hxfr⟩, hsR⟩, hsfr⟩
            · exact Or.inl ⟨⟨hs, hsv⟩, hsx⟩
            · exact absurd hsfr2 hsfr
            · exact Or.inr ⟨⟨hx, hxv⟩, hsR⟩
            · exact absurd hxfr haux3
          · rintro (⟨⟨hs, hsv⟩, hsx⟩ | ⟨⟨hx, hxv⟩, hsR⟩)
            · exact ⟨Or.inl ⟨Or.inl ⟨hs, hsv⟩, hsx⟩, haux1 hs⟩
            · exact ⟨Or.inr ⟨Or.inl ⟨hx, hxv⟩, hsR⟩, haux2 hsR⟩
        · rw [substitute_Abs_safe b hv hm]
          simp only [free_vars, Finset.mem_sdiff, Finset.mem_singleton]
          rw [ih b (by omega) x r s]
          have haux1 : s ∈ free_vars r → ¬s = v := fun h1 h2 => hm (h2 ▸ h1)
          have haux2 : ¬x = v := fun h1 => hv h1.symm
          constructor
          · rintro ⟨⟨hs, hsx⟩ | ⟨hx, hsR⟩, hsv⟩
            · exact Or.inl ⟨⟨hs, hsv⟩, hsx⟩
            · exact Or.inr ⟨⟨hx, haux2⟩, hsR⟩
          · rintro (⟨⟨hs, hsv⟩, hsx⟩ | ⟨⟨hx, _⟩, hsR⟩)
            · exact ⟨Or.inl ⟨hs, hsx⟩, hsv⟩
            · exact ⟨Or.inr ⟨hx, hsR⟩, haux1 hsR⟩

/-- Membership in the free variables of `substitute t x r`: `s` is free in
the result exactly when `s` is free in `t` and differs from `x`, or `x` is
free in `t` and `s` is free in `r`. -/
theorem mem_free_vars_substitute (t : Term) (x : String) (r : Term) (s : String) :
    s ∈ free_vars (substitute t x r) ↔
      (s ∈ free_vars t ∧ s ≠ x) ∨ (x ∈ free_vars t ∧ s ∈ free_vars r) :=
  mem_free_vars_substitute_aux (term_size t) t le_rfl x r s

/-! ### Normalization and reduction traces -/

theorem normalizeAux_of_none (k : Nat) (t : Term) (h : beta_reduce t = none) :
    normalizeAux k t = t := by
  cases k <;> simp [normalizeAux, h]

theorem trace_getLast (k : Nat) : ∀ t : Term,
    (t :: reductionAux k t).getLast? = some (normalizeAux k t) := by
  induction k with
  | zero => intro t; simp [reductionAux, normalizeAux]
  | succ k ih =>
    intro t
    cases hbr : beta_reduce t with
    | none => simp [reductionAux, normalizeAux, hbr]
    | some t' =>
      simp only [reductionAux, normalizeAux, hbr]
      rw [List.getLast?_cons_cons]
      exact ih t'

theorem trace_length (k : Nat) : ∀ t : Term, (reductionAux k t).length ≤ k := by
  induction k with
  | zero => intro t; simp [reductionAux]
  | succ k ih =>
    intro t
    cases hbr : beta_reduce t with
    | none => simp [reductionAux, hbr]
    | some t' =>
      simp only [reductionAux, hbr, List.length_cons]
      have := ih t'
      omega

/-! ### Claims -/

/-- C1: in the renaming case of `substitute` (binder distinct from the
target but free in the replacement), the binder is renamed to the fresh
name with the smallest numeric suffix not occurring in
`free_vars(replacement) ∪ free_vars(body) ∪ {target}`, the old binder is
substituted by the fresh variable throughout the body, and the target is
then substituted in the renamed body; substituting `x → Variable(y)` into
`Abstraction(y, Application(Variable(x), Variable(y)))` yields a result
whose bound variable differs from `y` and whose free-variable set is
`{y}`. -/
theorem claim_C1 :
    (∀ (v x : String) (r b : Term), v ≠ x → v ∈ free_vars r →
      substitute (.Abs v b) x r =
        .Abs (fresh_var v (free_vars r ∪ free_vars b ∪ {x}))
          (substitute
            (substitute b v (.Var (fresh_var v (free_vars r ∪ free_vars b ∪ {x})))) x r))
    ∧ (∀ (base : String) (avoid : Finset String), ∃ k, 1 ≤ k ∧
        fresh_var base avoid = candidate base k ∧ candidate base k ∉ avoid ∧
        ∀ j, 1 ≤ j → j < k → candidate base j ∈ avoid)
    ∧ (∃ (v' : String) (b' : Term),
        substitute (.Abs "y" (.App (.Var "x") (.Var "y"))) "x" (.Var "y") = .Abs v' b' ∧
        v' ≠ "y")
    ∧ free_vars (substitute (.Abs "y" (.App (.Var "x") (.Var "y"))) "x" (.Var "y"))
        = {"y"} := by
  refine ⟨fun v x r b hv hm => substitute_Abs_rename b hv hm, fresh_var_spec,
    ⟨"y_1", .App (.Var "y") (.Var "y_1"), by decide, by decide⟩, by decide⟩

/-- Witness for C1: the renaming equation instantiated at the spec's
capture-avoidance example. -/
theorem claim_C1_witness :
    substitute (.Abs "y" (.App (.Var "x") (.Var "y"))) "x" (.Var "y") =
      .Abs (fresh_var "y" (free_vars (Term.Var "y")
          ∪ free_vars (.App (.Var "x") (.Var "y")) ∪ {"x"}))
        (substitute
          (substitute (.App (.Var "x") (.Var "y")) "y"
            (.Var (fresh_var "y" (free_vars (Term.Var "y")
              ∪ free_vars (.App (.Var "x") (.Var "y")) ∪ {"x"}))))
          "x" (.Var "y")) :=
  claim_C1.1 "y" "x" (.Var "y") (.App (.Var "x") (.Var "y")) (by decide) (by decide)

/-- C2: single-step beta reduction follows the leftmost-outermost order: no
reduction on a variable; an application whose function is an abstraction is
the redex itself (no prior descent); any other application tries the
function first, then the argument; an abstraction reduces inside its
body. -/
theorem claim_C2 :
    (∀ n : String, beta_reduce (.Var n) = none)
    ∧ (∀ (v : String) (b a : Term),
        beta_reduce (.App (.Abs v b) a) = some (substitute b v a))
    ∧ (∀ (f a : Term), (∀ (v : String) (b : Term), f ≠ .Abs v b) →
        beta_reduce (.App f a) =
          match beta_reduce f with
          | some f' => some (.App f' a)
          | none =>
            match beta_reduce a with
            | some a' => some (.App f a')
            | none => none)
    ∧ (∀ (v : String) (b : Term),
        beta_reduce (.Abs v b) =
          match beta_reduce b with
          | some b' => some (.Abs v b')
          | none => none) := by
  refine ⟨fun n => rfl, fun v b a => rfl, fun f a h => ?_, fun v b => rfl⟩
  cases f with
  | Var n => rfl
  | App f1 f2 => rfl
  | Abs v b => exact absurd rfl (h v b)

/-- Witness for C2: the non-redex application case at a concrete input. -/
theorem claim_C2_witness :
    beta_reduce (.App (.Var "x") (.Var "y")) =
      match beta_reduce (Term.Var "x") with
      | some f' => some (.App f' (.Var "y"))
      | none =>
        match beta_reduce (Term.Var "y") with
        | some a' => some (.App (.Var "x") a')
        | none => none :=
  claim_C2.2.2.1 (.Var "x") (.Var "y") (fun v b h => by cases h)

/-- C3: the omega term has exactly one redex, is not in normal form, and
its 3-step trace is four copies of itself; in general a trace never exceeds
`max_steps + 1` entries (bounded truncation instead of failure). -/
theorem claim_C3 :
    count_redexes omegaTerm = 1 ∧ is_normal_form omegaTerm = false ∧
    reduction_steps omegaTerm 3 = [omegaTerm, omegaTerm, omegaTerm, omegaTerm] ∧
    (∀ (t : Term) (k : Nat), (reduction_steps t k).length ≤ k + 1) := by
  refine ⟨by decide, by decide, by decide, fun t k => ?_⟩
  simp only [reduction_steps, List.length_cons]
  have := trace_length k t
  omega

/-- C4: `is_normal_form` holds exactly when `beta_reduce` reports no
reduction, and on a normal form `normalize` returns the term unchanged for
every step bound. -/
theorem claim_C4 : ∀ (t : Term) (k : Nat),
    (is_normal_form t = true ↔ beta_reduce t = none) ∧
    (is_normal_form t = true → beta_reduce t = none ∧ normalize t k = t) := by
  intro t k
  have hiff : is_normal_form t = true ↔ beta_reduce t = none := by
    simp [is_normal_form, Option.isNone_iff_eq_none]
  refine ⟨hiff, fun h => ?_⟩
  have hn := hiff.mp h
  exact ⟨hn, normalizeAux_of_none k t hn⟩

/-- Witness for C4: the identity abstraction is a normal form and
`normalize` fixes it. -/
theorem claim_C4_witness :
    beta_reduce (.Abs "x" (.Var "x")) = none ∧
    normalize (.Abs "x" (.Var "x")) 5 = .Abs "x" (.Var "x") :=
  (claim_C4 (.Abs "x" (.Var "x")) 5).2 (by decide)

/-- C5: Church arithmetic normalizes to the exact canonical numerals:
`succ 2 = 3`, `1 + 2 = 3`, `2 * 3 = 6`. -/
theorem claim_C5 :
    normalize (.App church_succ (church_numeral 2)) = church_numeral 3 ∧
    normalize (.App (.App church_add (church_numeral 1)) (church_numeral 2))
      = church_numeral 3 ∧
    normalize (.App (.App church_mult (church_numeral 2)) (church_numeral 3))
      = church_numeral 6 :=
  ⟨by decide, by decide, by decide⟩

/-- C6: `eta_convert` returns `f` exactly on the outermost pattern
`Abstraction(x, Application(f, Variable(x)))` with `x` not free in `f`, and
`none` on everything else, including `λx.x x` where the pattern matches
syntactically but `x` is free in the function position. -/
theorem claim_C6 :
    (∀ (t u : Term), eta_convert t = some u ↔
      ∃ (x : String) (f : Term), t = .Abs x (.App f (.Var x)) ∧ x ∉ free_vars f ∧ u = f)
    ∧ eta_convert (.Abs "x" (.App (.Var "x") (.Var "x"))) = none := by
  constructor
  · intro t u
    constructor
    · intro h
      cases t with
      | Var n => simp [eta_convert] at h
      | App f a => simp [eta_convert] at h
      | Abs v body =>
        cases body with
        | Var m => simp [eta_convert] at h
        | Abs m b2 => simp [eta_convert] at h
        | App f arg =>
          cases arg with
          | Abs m b2 => simp [eta_convert] at h
          | App a1 a2 => simp [eta_convert] at h
          | Var n =>
            by_cases hn : n = v
            · subst hn
              by_cases hf : n ∉ free_vars f
              · have he : eta_convert (.Abs n (.App f (.Var n))) = some f := by
                  simp [eta_convert, hf]
                rw [he, Option.some.injEq] at h
                exact ⟨n, f, rfl, hf, h.symm⟩
              · simp [eta_convert, hf] at h
            · simp [eta_convert, hn] at h
    · rintro ⟨x, f, rfl, hx, rfl⟩
      simp [eta_convert, hx]
  · decide

/-- C7: alpha conversion preserves the free-variable set when the new name
does not collide with the abstraction's free variables. -/
theorem claim_C7 : ∀ (x : String) (b : Term) (y : String) (t : Term),
    alpha_convert (.Abs x b) y = some t → y ∉ free_vars (.Abs x b) →
    free_vars t = free_vars (.Abs x b) := by
  intro x b y t halpha hy
  simp only [alpha_convert, Option.some.injEq] at halpha
  subst halpha
  simp only [free_vars, Finset.mem_sdiff, Finset.mem_singleton, not_and, not_not] at hy
  ext s
  simp only [free_vars, Finset.mem_sdiff, Finset.mem_singleton,
    mem_free_vars_substitute, Finset.mem_singleton]
  constructor
  · rintro ⟨⟨hs, hsx⟩ | ⟨hx, hsy⟩, hns⟩
    · exact ⟨hs, hsx⟩
    · exact absurd hsy hns
  · rintro ⟨hs, hsx⟩
    refine ⟨Or.inl ⟨hs, hsx⟩, fun hsy => ?_⟩
    exact hsx (hsy ▸ hy (hsy ▸ hs))
  -- `hy : y ∈ free_vars b → y = x` after simp

/-- Witness for C7: renaming `λx.x z` to `λw.w z` preserves the free
variables. -/
theorem claim_C7_witness :
    free_vars (.Abs "w" (substitute (.App (.Var "x") (.Var "z")) "x" (.Var "w")))
      = free_vars (.Abs "x" (.App (.Var "x") (.Var "z"))) :=
  claim_C7 "x" (.App (.Var "x") (.Var "z")) "w"
    (.Abs "w" (substitute (.App (.Var "x") (.Var "z")) "x" (.Var "w"))) rfl (by decide)

/-- C8: calling `alpha_convert` on a non-abstraction is rejected (in the
source an `AttributeError` is raised, embedded as `none`): it never
silently coerces or returns a converted term. -/
theorem claim_C8 : ∀ (t : Term) (y : String),
    (∀ (v : String) (b : Term), t ≠ .Abs v b) → alpha_convert t y = none := by
  intro t y h
  cases t with
  | Var n => rfl
  | App f a => rfl
  | Abs v b => exact absurd rfl (h v b)

/-- Witness for C8: alpha conversion of a bare variable is rejected. -/
theorem claim_C8_witness : alpha_convert (.Var "x") "y" = none :=
  claim_C8 (.Var "x") "y" (fun v b h => by cases h)

/-- C9: `normalize` and `reduction_steps` agree: the trace ends at the
normalized term, starts with the input, and has between 1 and
`max_steps + 1` entries. -/
theorem claim_C9 : ∀ (t : Term) (k : Nat),
    (reduction_steps t k).getLast? = some (normalize t k) ∧
    (reduction_steps t k).head? = some t ∧
    1 ≤ (reduction_steps t k).length ∧ (reduction_steps t k).length ≤ k + 1 := by
  intro t k
  refine ⟨trace_getLast k t, rfl, by simp [reduction_steps], ?_⟩
  simp only [reduction_steps, List.length_cons]
  have := trace_length k t
  omega

/-- C10: substitution never introduces free variables beyond the
replacement's: `free_vars(substitute(t, x, r)) ⊆ (free_vars(t) - {x}) ∪
free_vars(r)`. -/
theorem claim_C10 : ∀ (t : Term) (x : String) (r : Term),
    free_vars (substitute t x r) ⊆ (free_vars t \ {x}) ∪ free_vars r := by
  intro t x r s hs
  rw [mem_free_vars_substitute] at hs
  simp only [Finset.mem_union, Finset.mem_sdiff, Finset.mem_singleton]
  rcases hs with ⟨h1, h2⟩ | ⟨_, h2⟩
  · exact Or.inl ⟨h1, h2⟩
  · exact Or.inr h2

end LambdaCalc
